import Mathlib

/-
  Verification of the monotonicity classifier in src/vector_extensions.rs
  of the ndarray-interp repository.

  The Rust function `monotonic_prop` classifies a one-dimensional sequence
  as Rising, Falling or NotMonotonic by a short-circuiting `try_fold` over
  the length-2 windows of the sequence.  We embed the function over lists
  in traversal order, and additionally over strided array views (the
  `ArrayBase` of ndarray) for the view-independence property.

  Rust comparison model: the element type only carries `PartialOrd`, so a
  comparison of two elements is a partial three-way outcome.  We model it
  as `cmp : A -> A -> Option Ordering` (the semantics of `partial_cmp`):
  `a < b` holds iff `cmp a b = some .lt`, `a == b` iff `cmp a b = some .eq`,
  `a > b` iff `cmp a b = some .gt`, and `cmp a b = none` is an incomparable
  pair (all three Rust tests false, e.g. a floating-point NaN).

  Panic model: the Rust code contains `unreachable!()` arms (two in the
  window destructuring, one for the `Known(NotMonotonic)` accumulator).
  The embedding returns `Option Monotonic`; `none` means the function
  panicked, `some m` is a normal return of `m`.
-/

namespace VecExt

/-- The public result type `Monotonic` of vector_extensions.rs. -/
inductive Monotonic : Type where
  | Rising (strict : Bool)
  | Falling (strict : Bool)
  | NotMonotonic
deriving DecidableEq, Repr

/-- The local accumulator type `State` declared inside `monotonic_prop`. -/
inductive State : Type where
  | Init
  | NotStrict
  | Known (m : Monotonic)
deriving DecidableEq, Repr

/-- One step of the `try_fold` closure, after both window elements have been
fetched.  Mirrors the `match state` block of the Rust closure: each arm is the
same if/else-if/else chain on the comparisons of `a` and `b`.  The
`Known(NotMonotonic)` arm is `unreachable!()`, i.e. a panic, modelled as
`none`. -/
def stepState (cmp : α → α → Option Ordering) (state : State) (a b : α) :
    Option (Except Monotonic State) :=
  match state with
  | .Init =>
      if cmp a b = some .lt then some (.ok (.Known (.Rising true)))
      else if cmp a b = some .eq then some (.ok .NotStrict)
      else some (.ok (.Known (.Falling true)))
  | .NotStrict =>
      if cmp a b = some .lt then some (.ok (.Known (.Rising false)))
      else if cmp a b = some .eq then some (.ok .NotStrict)
      else some (.ok (.Known (.Falling false)))
  | .Known (.Rising strict) =>
      if cmp a b = some .eq then some (.ok (.Known (.Rising false)))
      else if cmp a b = some .lt then some (.ok (.Known (.Rising strict)))
      else some (.error .NotMonotonic)
  | .Known (.Falling strict) =>
      if cmp a b = some .eq then some (.ok (.Known (.Falling false)))
      else if cmp a b = some .gt then some (.ok (.Known (.Falling strict)))
      else some (.error .NotMonotonic)
  | .Known .NotMonotonic => none

/-- The body of the `try_fold` closure on one window `items`:
`items.get(0)` and `items.get(1)` with `unwrap_or_else(|| unreachable!())`
(panic when absent, modelled as `none`), then the state match. -/
def stepWindow (cmp : α → α → Option Ordering) (state : State)
    (items : List α) : Option (Except Monotonic State) :=
  match items.get? 0 with
  | none => none
  | some a =>
      match items.get? 1 with
      | none => none
      | some b => stepState cmp state a b

/-- `Iterator::try_fold` over the windows: stops at the first `Err`
(short-circuit), propagates a panic (`none`) from the closure. -/
def tryFoldWindows (cmp : α → α → Option Ordering) (state : State) :
    List (List α) → Option (Except Monotonic State)
  | [] => some (.ok state)
  | w :: ws =>
      match stepWindow cmp state w with
      | none => none
      | some (.error m) => some (.error m)
      | some (.ok s) => tryFoldWindows cmp s ws

/-- `self.windows(2)` of ndarray on a one-dimensional array: the list of all
contiguous length-2 windows in traversal order (empty when the length is
below 2). -/
def windows2 : List α → List (List α)
  | a :: b :: rest => [a, b] :: windows2 (b :: rest)
  | _ => []

/-- The embedded `monotonic_prop`, over the traversal-order element list.
Mirrors the Rust function body: early return `NotMonotonic` for length <= 1;
otherwise `try_fold` from `Init` over the windows, `.unwrap_or(Known(NotMonotonic))`,
and the final `if let Known(state)` projection.  `none` models a panic. -/
def monotonic_prop (cmp : α → α → Option Ordering) (l : List α) :
    Option Monotonic :=
  if l.length ≤ 1 then some .NotMonotonic
  else
    match tryFoldWindows cmp .Init (windows2 l) with
    | none => none
    | some r =>
        let state := match r with
          | .ok s => s
          | .error _ => State.Known .NotMonotonic
        some (match state with
          | .Known m => m
          | _ => .NotMonotonic)

/-- The three-way comparison a linearly ordered element type induces,
written exactly as the chain of Rust tests `a < b`, `a == b`, else greater. -/
def ordOf [LinearOrder α] (a b : α) : Ordering :=
  if a < b then .lt else if a = b then .eq else .gt

/-- `partial_cmp` of a totally ordered element type: always comparable. -/
def cmpLin [LinearOrder α] (a b : α) : Option Ordering := some (ordOf a b)

/-- Adjacent pairs of a list in traversal order (the windows, as pairs). -/
def pairsOf : List α → List (α × α)
  | a :: b :: rest => (a, b) :: pairsOf (b :: rest)
  | _ => []

/-- The three-way comparison outcomes of the adjacent pairs. -/
def ordsOf [LinearOrder α] (l : List α) : List Ordering :=
  (pairsOf l).map (fun p => ordOf p.1 p.2)

/-- Accumulator states the fold can actually hold: the `Known(NotMonotonic)`
shape never occurs (its arm in the closure is `unreachable!()`). -/
def goodState (s : State) : Prop := s ≠ State.Known .NotMonotonic

/-- The closure step on a totally ordered type, as a pure function of the
three-way outcome of the window pair.  Same arm structure as `stepState`. -/
def stepOrd (s : State) (o : Ordering) : Except Monotonic State :=
  match s with
  | .Init =>
      if o = .lt then .ok (.Known (.Rising true))
      else if o = .eq then .ok .NotStrict
      else .ok (.Known (.Falling true))
  | .NotStrict =>
      if o = .lt then .ok (.Known (.Rising false))
      else if o = .eq then .ok .NotStrict
      else .ok (.Known (.Falling false))
  | .Known (.Rising strict) =>
      if o = .eq then .ok (.Known (.Rising false))
      else if o = .lt then .ok (.Known (.Rising strict))
      else .error .NotMonotonic
  | .Known (.Falling strict) =>
      if o = .eq then .ok (.Known (.Falling false))
      else if o = .gt then .ok (.Known (.Falling strict))
      else .error .NotMonotonic
  | .Known .NotMonotonic => .error .NotMonotonic

/-- The short-circuiting fold over the three-way outcomes. -/
def runOrds (s : State) : List Ordering → Except Monotonic State
  | [] => .ok s
  | o :: os =>
      match stepOrd s o with
      | .error m => .error m
      | .ok s1 => runOrds s1 os

/-- Every adjacent comparison came out equal. -/
def allEq (os : List Ordering) : Bool := os.all (fun o => o == .eq)

/-- No adjacent comparison came out greater (sequence never decreases). -/
def noGt (os : List Ordering) : Bool := os.all (fun o => o != .gt)

/-- No adjacent comparison came out less (sequence never increases). -/
def noLt (os : List Ordering) : Bool := os.all (fun o => o != .lt)

/-- Every adjacent comparison came out strictly less. -/
def allLt (os : List Ordering) : Bool := os.all (fun o => o == .lt)

/-- Every adjacent comparison came out strictly greater. -/
def allGt (os : List Ordering) : Bool := os.all (fun o => o == .gt)

/-- Some adjacent comparison came out strictly less. -/
def anyLt (os : List Ordering) : Bool := os.any (fun o => o == .lt)

/-- Some adjacent comparison came out strictly greater. -/
def anyGt (os : List Ordering) : Bool := os.any (fun o => o == .gt)

/-- Closed form of the fold from the initial state: the final accumulator as a
function of the multiset of comparison outcomes. -/
def classifyOrds (os : List Ordering) : Except Monotonic State :=
  if os.isEmpty then .ok .Init
  else if allEq os then .ok .NotStrict
  else if noGt os then .ok (.Known (.Rising (allLt os)))
  else if noLt os then .ok (.Known (.Falling (allGt os)))
  else .error .NotMonotonic

/-- Closed form of the entire classifier on a totally ordered element type. -/
def classifyList [LinearOrder α] (l : List α) : Monotonic :=
  if l.length ≤ 1 then .NotMonotonic
  else
    match classifyOrds (ordsOf l) with
    | .ok (.Known m) => m
    | _ => .NotMonotonic

/-- Reference state machine of the specification (section 4.1), exactly as
its words give it: Undetermined, FlatSoFar, KnownRising, KnownFalling and
Terminated. -/
inductive SpecState : Type where
  | Undetermined
  | FlatSoFar
  | KnownRising (strict : Bool)
  | KnownFalling (strict : Bool)
  | Terminated
deriving DecidableEq, Repr

/-- Transition rules of the specification, per adjacent pair, as a function
of the three-way comparison outcome of the pair.  Terminated absorbs, which
realises the short-circuit over the remaining pairs. -/
def specStep (s : SpecState) (o : Ordering) : SpecState :=
  match s, o with
  | .Undetermined, .lt => .KnownRising true
  | .Undetermined, .eq => .FlatSoFar
  | .Undetermined, .gt => .KnownFalling true
  | .FlatSoFar, .lt => .KnownRising false
  | .FlatSoFar, .eq => .FlatSoFar
  | .FlatSoFar, .gt => .KnownFalling false
  | .KnownRising _, .eq => .KnownRising false
  | .KnownRising b, .lt => .KnownRising b
  | .KnownRising _, .gt => .Terminated
  | .KnownFalling _, .eq => .KnownFalling false
  | .KnownFalling b, .gt => .KnownFalling b
  | .KnownFalling _, .lt => .Terminated
  | .Terminated, _ => .Terminated

/-- The left-to-right pass of the specification machine, terminating at the
first contradiction. -/
def specRun (s : SpecState) : List Ordering → SpecState
  | [] => s
  | o :: os =>
      match specStep s o with
      | .Terminated => .Terminated
      | s1 => specRun s1 os

/-- The whole classification of the specification: NotMonotonic below length
2, otherwise run the machine over the adjacent pairs and read the final
state off (Terminated and FlatSoFar give NotMonotonic). -/
def specClassify [LinearOrder α] (l : List α) : Monotonic :=
  if l.length ≤ 1 then .NotMonotonic
  else
    match specRun .Undetermined (ordsOf l) with
    | .KnownRising b => .Rising b
    | .KnownFalling b => .Falling b
    | _ => .NotMonotonic

/-- Map from the accumulator states of the code to the states of the
specification machine (an Err short-circuit is Terminated). -/
def stMap : State → SpecState
  | .Init => .Undetermined
  | .NotStrict => .FlatSoFar
  | .Known (.Rising b) => .KnownRising b
  | .Known (.Falling b) => .KnownFalling b
  | .Known .NotMonotonic => .Terminated

/-- Map from fold outcomes of the code to specification states. -/
def excMap : Except Monotonic State → SpecState
  | .ok s => stMap s
  | .error _ => .Terminated

/-- Swap of a three-way outcome under reversal of the compared pair. -/
def flipOrd : Ordering → Ordering
  | .lt => .gt
  | .eq => .eq
  | .gt => .lt

/-- The mirror of a classification under reversal of traversal order. -/
def mirrorMono : Monotonic → Monotonic
  | .Rising b => .Falling b
  | .Falling b => .Rising b
  | .NotMonotonic => .NotMonotonic

/-- Accumulator states that record non-strictness. -/
def nonStrictState (s : State) : Prop :=
  s = .NotStrict ∨ s = .Known (.Rising false) ∨ s = .Known (.Falling false)

/-- Number of adjacent-pair comparisons the fold performs: one per window
consumed, stopping after the window on which the closure errors (or
panics). -/
def countSteps (cmp : α → α → Option Ordering) :
    State → List (List α) → Nat
  | _, [] => 0
  | s, w :: ws =>
      match stepWindow cmp s w with
      | none => 1
      | some (.error _) => 1
      | some (.ok s1) => 1 + countSteps cmp s1 ws

/-- Comparisons performed by the whole function (none below length 2: the
fold is never entered). -/
def countComparisons (cmp : α → α → Option Ordering) (l : List α) : Nat :=
  if l.length ≤ 1 then 0 else countSteps cmp .Init (windows2 l)

/-- A one-dimensional strided view, the shape of `ArrayBase<S, Ix1>` of
ndarray: backing storage, start offset, signed element stride and length.
A slice such as `s![..;-1]` yields the same storage with another offset and
a negative stride. -/
structure ArrayView (α : Type u) : Type u where
  data : List α
  offset : Nat
  stride : Int
  len : Nat

/-- Element access of the view at logical index i: offset + i * stride into
the backing storage (out-of-storage access yields none). -/
def ArrayView.lookup (v : ArrayView α) (i : Nat) : Option α :=
  let idx : Int := (v.offset : Int) + (i : Int) * v.stride
  if 0 ≤ idx then v.data.get? idx.toNat else none

/-- The elements of the view in traversal order. -/
def ArrayView.elems (v : ArrayView α) : List (Option α) :=
  (List.range v.len).map v.lookup

/-- The closure step on one window of a view: the window at index i holds
the elements at i and i + 1. -/
def stepIdx (cmp : α → α → Option Ordering) (v : ArrayView α) (s : State)
    (i : Nat) : Option (Except Monotonic State) :=
  match v.lookup i with
  | none => none
  | some a =>
      match v.lookup (i + 1) with
      | none => none
      | some b => stepState cmp s a b

/-- The `try_fold` over the windows of a view, by window start index. -/
def tryFoldIdx (cmp : α → α → Option Ordering) (v : ArrayView α)
    (s : State) : List Nat → Option (Except Monotonic State)
  | [] => some (.ok s)
  | i :: idxs =>
      match stepIdx cmp v s i with
      | none => none
      | some (.error m) => some (.error m)
      | some (.ok s1) => tryFoldIdx cmp v s1 idxs

/-- The embedded monotonic_prop over a strided view: the windows of a
length-n view start at indices 0 .. n - 2. -/
def monotonic_propView (cmp : α → α → Option Ordering) (v : ArrayView α) :
    Option Monotonic :=
  if v.len ≤ 1 then some .NotMonotonic
  else
    match tryFoldIdx cmp v .Init (List.range (v.len - 1)) with
    | none => none
    | some r =>
        let state := match r with
          | .ok s => s
          | .error _ => State.Known .NotMonotonic
        some (match state with
          | .Known m => m
          | _ => .NotMonotonic)

/-- The reversed-storage view of the test
test_ordered_view_on_unordred_array. -/
def viewA : ArrayView Int := ⟨[5, 4, 3, 2, 1], 4, -1, 5⟩

/-- A contiguous forward view holding the same traversal elements. -/
def viewB : ArrayView Int := ⟨[1, 2, 3, 4, 5], 0, 1, 5⟩

/-- An element type with no comparable pair, the shape of a NaN under the
partial order of f64 values. -/
def cmpNone : Unit → Unit → Option Ordering := fun _ _ => none

/-- The sequence of accumulator states the fold passes through (cut short
at an error or panic). -/
def foldTrace (cmp : α → α → Option Ordering) :
    State → List (List α) → List State
  | s, [] => [s]
  | s, w :: ws =>
      s :: (match stepWindow cmp s w with
        | some (.ok s1) => foldTrace cmp s1 ws
        | _ => [])

/-- The contiguous forward view over a list: the identity layout. -/
def mkView (l : List α) : ArrayView α := ⟨l, 0, 1, l.length⟩

/-- The windows fold rewritten over pairs, the common form of the list fold
and the contiguous view fold. -/
def tryFoldPairs (cmp : α → α → Option Ordering) (s : State) :
    List (α × α) → Option (Except Monotonic State)
  | [] => some (.ok s)
  | p :: ps =>
      match stepState cmp s p.1 p.2 with
      | none => none
      | some (.error m) => some (.error m)
      | some (.ok s1) => tryFoldPairs cmp s1 ps

theorem stepOrd_good (s : State) (o : Ordering) (s1 : State)
    (h : stepOrd s o = .ok s1) : goodState s1 := by
  rcases s with _ | _ | m
  · unfold stepOrd at h
    split_ifs at h <;> injection h with h <;> subst h <;> simp [goodState]
  · unfold stepOrd at h
    split_ifs at h <;> injection h with h <;> subst h <;> simp [goodState]
  · rcases m with b | b | _ <;> unfold stepOrd at h
    · split_ifs at h <;> injection h with h <;> subst h <;> simp [goodState]
    · split_ifs at h <;> injection h with h <;> subst h <;> simp [goodState]
    · exact absurd h (by simp)

theorem stepState_eq_stepOrd [LinearOrder α] (s : State) (hs : goodState s)
    (a b : α) : stepState cmpLin s a b = some (stepOrd s (ordOf a b)) := by
  rcases s with _ | _ | m
  · simp only [stepState, stepOrd, cmpLin, Option.some.injEq]
    split_ifs <;> rfl
  · simp only [stepState, stepOrd, cmpLin, Option.some.injEq]
    split_ifs <;> rfl
  · rcases m with b1 | b1 | _
    · simp only [stepState, stepOrd, cmpLin, Option.some.injEq]
      split_ifs <;> rfl
    · simp only [stepState, stepOrd, cmpLin, Option.some.injEq]
      split_ifs <;> rfl
    · exact absurd rfl hs

/-- The layered windows fold of the code agrees, on a totally ordered type,
with the pure fold over three-way outcomes, and in particular never panics. -/
theorem tryFoldWindows_eq_runOrds [LinearOrder α] :
    ∀ (l : List α) (s : State), goodState s →
      tryFoldWindows cmpLin s (windows2 l) = some (runOrds s (ordsOf l)) := by
  intro l
  induction l with
  | nil => intro s _; rfl
  | cons a tail ih =>
    intro s hs
    cases tail with
    | nil => rfl
    | cons b rest =>
      show tryFoldWindows cmpLin s ([a, b] :: windows2 (b :: rest)) = _
      have hw : stepWindow cmpLin s [a, b] = stepState cmpLin s a b := rfl
      rw [tryFoldWindows, hw, stepState_eq_stepOrd s hs a b]
      have hrun : runOrds s (ordsOf (a :: b :: rest)) =
          match stepOrd s (ordOf a b) with
          | .error m => .error m
          | .ok s1 => runOrds s1 (ordsOf (b :: rest)) := rfl
      rw [hrun]
      rcases h : stepOrd s (ordOf a b) with m | s1
      · rfl
      · exact ih s1 (stepOrd_good s (ordOf a b) s1 h)

@[simp] theorem bne_lt_gt : (Ordering.lt != Ordering.gt) = true := rfl

@[simp] theorem bne_eq_gt : (Ordering.eq != Ordering.gt) = true := rfl

@[simp] theorem bne_gt_gt : (Ordering.gt != Ordering.gt) = false := rfl

@[simp] theorem bne_lt_lt : (Ordering.lt != Ordering.lt) = false := rfl

@[simp] theorem bne_eq_lt : (Ordering.eq != Ordering.lt) = true := rfl

@[simp] theorem bne_gt_lt : (Ordering.gt != Ordering.lt) = true := rfl

@[simp] theorem beq_lt_lt : (Ordering.lt == Ordering.lt) = true := rfl

@[simp] theorem beq_eq_lt : (Ordering.eq == Ordering.lt) = false := rfl

@[simp] theorem beq_gt_lt : (Ordering.gt == Ordering.lt) = false := rfl

@[simp] theorem beq_lt_eq : (Ordering.lt == Ordering.eq) = false := rfl

@[simp] theorem beq_eq_eq : (Ordering.eq == Ordering.eq) = true := rfl

@[simp] theorem beq_gt_eq : (Ordering.gt == Ordering.eq) = false := rfl

@[simp] theorem beq_lt_gt : (Ordering.lt == Ordering.gt) = false := rfl

@[simp] theorem beq_eq_gt : (Ordering.eq == Ordering.gt) = false := rfl

@[simp] theorem beq_gt_gt : (Ordering.gt == Ordering.gt) = true := rfl

theorem runOrds_rising (b : Bool) :
    ∀ os : List Ordering, runOrds (.Known (.Rising b)) os =
      if noGt os then .ok (.Known (.Rising (b && allLt os)))
      else .error .NotMonotonic := by
  intro os
  induction os generalizing b with
  | nil => simp [runOrds, noGt, allLt]
  | cons o os ih =>
    cases o
    · show runOrds (.Known (.Rising b)) os = _
      rw [ih]
      simp only [noGt, allLt, List.all_cons, bne_lt_gt, beq_lt_lt, Bool.true_and]
    · show runOrds (.Known (.Rising false)) os = _
      rw [ih]
      simp only [noGt, allLt, List.all_cons, bne_eq_gt, beq_eq_lt, Bool.true_and,
        Bool.false_and, Bool.and_false]
    · simp [runOrds, stepOrd, noGt]

theorem runOrds_falling (b : Bool) :
    ∀ os : List Ordering, runOrds (.Known (.Falling b)) os =
      if noLt os then .ok (.Known (.Falling (b && allGt os)))
      else .error .NotMonotonic := by
  intro os
  induction os generalizing b with
  | nil => simp [runOrds, noLt, allGt]
  | cons o os ih =>
    cases o
    · simp [runOrds, stepOrd, noLt]
    · show runOrds (.Known (.Falling false)) os = _
      rw [ih]
      simp only [noLt, allGt, List.all_cons, bne_eq_lt, beq_eq_gt, Bool.true_and,
        Bool.false_and, Bool.and_false]
    · show runOrds (.Known (.Falling b)) os = _
      rw [ih]
      simp only [noLt, allGt, List.all_cons, bne_gt_lt, beq_gt_gt, Bool.true_and]

theorem runOrds_notStrict :
    ∀ os : List Ordering, runOrds .NotStrict os =
      if allEq os then .ok .NotStrict
      else if noGt os then .ok (.Known (.Rising false))
      else if noLt os then .ok (.Known (.Falling false))
      else .error .NotMonotonic := by
  intro os
  induction os with
  | nil => simp [runOrds, allEq, noGt]
  | cons o os ih =>
    cases o
    · show runOrds (.Known (.Rising false)) os = _
      rw [runOrds_rising]
      simp only [allEq, noGt, noLt, List.all_cons, beq_lt_eq, bne_lt_gt, bne_lt_lt,
        Bool.true_and, Bool.false_and, Bool.and_false]
      simp
    · show runOrds .NotStrict os = _
      rw [ih]
      simp only [allEq, noGt, noLt, List.all_cons, beq_eq_eq, bne_eq_gt, bne_eq_lt,
        Bool.true_and]
    · show runOrds (.Known (.Falling false)) os = _
      rw [runOrds_falling]
      simp only [allEq, noGt, noLt, List.all_cons, beq_gt_eq, bne_gt_gt, bne_gt_lt,
        Bool.true_and, Bool.false_and, Bool.and_false]
      simp

theorem runOrds_init :
    ∀ os : List Ordering, runOrds .Init os = classifyOrds os := by
  intro os
  cases os with
  | nil => rfl
  | cons o os =>
    cases o
    · show runOrds (.Known (.Rising true)) os = _
      rw [runOrds_rising]
      simp only [classifyOrds, allEq, noGt, noLt, allLt, List.isEmpty_cons,
        List.all_cons, beq_lt_eq, beq_lt_lt, bne_lt_gt, bne_lt_lt, Bool.true_and,
        Bool.false_and, Bool.and_false]
      simp
    · show runOrds .NotStrict os = _
      rw [runOrds_notStrict]
      simp only [classifyOrds, allEq, noGt, noLt, allLt, allGt, List.isEmpty_cons,
        List.all_cons, beq_eq_eq, beq_eq_lt, beq_eq_gt, bne_eq_gt, bne_eq_lt,
        Bool.true_and, Bool.false_and, Bool.and_false]
      simp
    · show runOrds (.Known (.Falling true)) os = _
      rw [runOrds_falling]
      simp only [classifyOrds, allEq, noGt, noLt, allGt, List.isEmpty_cons,
        List.all_cons, beq_gt_eq, beq_gt_gt, bne_gt_gt, bne_gt_lt, Bool.true_and,
        Bool.false_and, Bool.and_false]
      simp

/-- On a totally ordered element type the classifier never panics and computes
the closed form. -/
theorem monotonic_prop_eq_classifyList [LinearOrder α] (l : List α) :
    monotonic_prop cmpLin l = some (classifyList l) := by
  unfold monotonic_prop classifyList
  by_cases h : l.length ≤ 1
  · simp [h]
  · simp only [h, if_false]
    rw [tryFoldWindows_eq_runOrds l .Init (by simp [goodState]), runOrds_init]
    rcases classifyOrds (ordsOf l) with m | s
    · rfl
    · rcases s with _ | _ | m <;> rfl

theorem ordOf_eq_lt [LinearOrder α] (a b : α) : ordOf a b = .lt ↔ a < b := by
  unfold ordOf
  split_ifs with h1 h2
  · simp [h1]
  · simp [h2]
  · simp [h1]

theorem ordOf_eq_eq [LinearOrder α] (a b : α) : ordOf a b = .eq ↔ a = b := by
  unfold ordOf
  split_ifs with h1 h2
  · simp [ne_of_lt h1]
  · simp [h2]
  · have hne : a ≠ b := fun he => h2 he
    simp [hne]

theorem ordOf_eq_gt [LinearOrder α] (a b : α) : ordOf a b = .gt ↔ b < a := by
  unfold ordOf
  rcases lt_trichotomy a b with h | h | h
  · simp [h, asymm h]
  · simp [h, lt_irrefl]
  · simp [asymm h, ne_of_gt h, h]

theorem ordOf_ne_gt [LinearOrder α] (a b : α) : ¬ ordOf a b = .gt ↔ a ≤ b := by
  rw [ordOf_eq_gt, not_lt]

theorem ordOf_ne_lt [LinearOrder α] (a b : α) : ¬ ordOf a b = .lt ↔ b ≤ a := by
  rw [ordOf_eq_lt, not_lt]

theorem beq_ord_iff (o o2 : Ordering) : (o == o2) = true ↔ o = o2 := by
  cases o <;> cases o2 <;> decide

theorem bne_ord_iff (o o2 : Ordering) : (o != o2) = true ↔ ¬ o = o2 := by
  cases o <;> cases o2 <;> decide

theorem all_map_eq (ps : List (α × α)) (f : α × α → Ordering)
    (q : Ordering → Bool) :
    (ps.map f).all q = ps.all (fun p => q (f p)) := by
  induction ps with
  | nil => rfl
  | cons p ps ih => simp [List.all_cons, ih]

theorem any_map_eq (ps : List (α × α)) (f : α × α → Ordering)
    (q : Ordering → Bool) :
    (ps.map f).any q = ps.any (fun p => q (f p)) := by
  induction ps with
  | nil => rfl
  | cons p ps ih => simp [List.any_cons, ih]

theorem all_ordsOf_iff [LinearOrder α] (l : List α) (q : Ordering → Bool)
    (P : α → α → Prop) (hq : ∀ a b : α, q (ordOf a b) = true ↔ P a b) :
    (ordsOf l).all q = true ↔ ∀ p ∈ pairsOf l, P p.1 p.2 := by
  rw [ordsOf, all_map_eq, List.all_eq_true]
  constructor
  · intro h p hp
    exact (hq p.1 p.2).mp (h p hp)
  · intro h p hp
    exact (hq p.1 p.2).mpr (h p hp)

theorem any_ordsOf_iff [LinearOrder α] (l : List α) (q : Ordering → Bool)
    (P : α → α → Prop) (hq : ∀ a b : α, q (ordOf a b) = true ↔ P a b) :
    (ordsOf l).any q = true ↔ ∃ p ∈ pairsOf l, P p.1 p.2 := by
  rw [ordsOf, any_map_eq, List.any_eq_true]
  constructor
  · rintro ⟨p, hp, h1⟩
    exact ⟨p, hp, (hq p.1 p.2).mp h1⟩
  · rintro ⟨p, hp, h1⟩
    exact ⟨p, hp, (hq p.1 p.2).mpr h1⟩

theorem noGt_iff [LinearOrder α] (l : List α) :
    noGt (ordsOf l) = true ↔ ∀ p ∈ pairsOf l, p.1 ≤ p.2 :=
  all_ordsOf_iff l (fun o => o != Ordering.gt) (fun a b => a ≤ b)
    (fun a b => by rw [bne_ord_iff]; exact ordOf_ne_gt a b)

theorem noLt_iff [LinearOrder α] (l : List α) :
    noLt (ordsOf l) = true ↔ ∀ p ∈ pairsOf l, p.2 ≤ p.1 :=
  all_ordsOf_iff l (fun o => o != Ordering.lt) (fun a b => b ≤ a)
    (fun a b => by rw [bne_ord_iff]; exact ordOf_ne_lt a b)

theorem allLt_iff [LinearOrder α] (l : List α) :
    allLt (ordsOf l) = true ↔ ∀ p ∈ pairsOf l, p.1 < p.2 :=
  all_ordsOf_iff l (fun o => o == Ordering.lt) (fun a b => a < b)
    (fun a b => by rw [beq_ord_iff]; exact ordOf_eq_lt a b)

theorem allGt_iff [LinearOrder α] (l : List α) :
    allGt (ordsOf l) = true ↔ ∀ p ∈ pairsOf l, p.2 < p.1 :=
  all_ordsOf_iff l (fun o => o == Ordering.gt) (fun a b => b < a)
    (fun a b => by rw [beq_ord_iff]; exact ordOf_eq_gt a b)

theorem allEq_iff [LinearOrder α] (l : List α) :
    allEq (ordsOf l) = true ↔ ∀ p ∈ pairsOf l, p.1 = p.2 :=
  all_ordsOf_iff l (fun o => o == Ordering.eq) (fun a b => a = b)
    (fun a b => by rw [beq_ord_iff]; exact ordOf_eq_eq a b)

theorem anyLt_iff [LinearOrder α] (l : List α) :
    anyLt (ordsOf l) = true ↔ ∃ p ∈ pairsOf l, p.1 < p.2 :=
  any_ordsOf_iff l (fun o => o == Ordering.lt) (fun a b => a < b)
    (fun a b => by rw [beq_ord_iff]; exact ordOf_eq_lt a b)

theorem anyGt_iff [LinearOrder α] (l : List α) :
    anyGt (ordsOf l) = true ↔ ∃ p ∈ pairsOf l, p.2 < p.1 :=
  any_ordsOf_iff l (fun o => o == Ordering.gt) (fun a b => b < a)
    (fun a b => by rw [beq_ord_iff]; exact ordOf_eq_gt a b)

theorem pairsOf_length : ∀ l : List α, (pairsOf l).length = l.length - 1 := by
  intro l
  induction l with
  | nil => rfl
  | cons a tail ih =>
    cases tail with
    | nil => rfl
    | cons b rest =>
      show (pairsOf (b :: rest)).length + 1 = _
      rw [ih]
      simp

theorem ordsOf_isEmpty_false [LinearOrder α] (l : List α) (h : 2 ≤ l.length) :
    (ordsOf l).isEmpty = false := by
  have hlen : (ordsOf l).length = l.length - 1 := by
    simp [ordsOf, pairsOf_length]
  rcases hq : ordsOf l with _ | ⟨o, os⟩
  · rw [hq] at hlen
    simp at hlen
    omega
  · rfl

theorem anyLt_eq_false_of_allEq (os : List Ordering) (h : allEq os = true) :
    anyLt os = false := by
  rw [allEq, List.all_eq_true] at h
  rw [anyLt, List.any_eq_false]
  intro o ho
  have heq := h o ho
  rw [beq_ord_iff] at heq
  subst heq
  simp

theorem anyGt_eq_false_of_allEq (os : List Ordering) (h : allEq os = true) :
    anyGt os = false := by
  rw [allEq, List.all_eq_true] at h
  rw [anyGt, List.any_eq_false]
  intro o ho
  have heq := h o ho
  rw [beq_ord_iff] at heq
  subst heq
  simp

theorem anyLt_of_noGt_not_allEq (os : List Ordering) (hg : noGt os = true)
    (he : allEq os = false) : anyLt os = true := by
  rw [allEq, List.all_eq_false] at he
  obtain ⟨o, ho, hne⟩ := he
  rw [noGt, List.all_eq_true] at hg
  have hgo := hg o ho
  rw [anyLt, List.any_eq_true]
  refine ⟨o, ho, ?_⟩
  cases o
  · rfl
  · exact absurd rfl hne
  · simp at hgo

theorem anyGt_of_noLt_not_allEq (os : List Ordering) (hl : noLt os = true)
    (he : allEq os = false) : anyGt os = true := by
  rw [allEq, List.all_eq_false] at he
  obtain ⟨o, ho, hne⟩ := he
  rw [noLt, List.all_eq_true] at hl
  have hlo := hl o ho
  rw [anyGt, List.any_eq_true]
  refine ⟨o, ho, ?_⟩
  cases o
  · simp at hlo
  · exact absurd rfl hne
  · rfl

theorem noLt_eq_false_of_anyLt (os : List Ordering) (h : anyLt os = true) :
    noLt os = false := by
  rw [anyLt, List.any_eq_true] at h
  obtain ⟨o, ho, hlt⟩ := h
  rw [beq_ord_iff] at hlt
  subst hlt
  rw [noLt, List.all_eq_false]
  exact ⟨.lt, ho, by simp⟩

theorem noGt_eq_false_of_anyGt (os : List Ordering) (h : anyGt os = true) :
    noGt os = false := by
  rw [anyGt, List.any_eq_true] at h
  obtain ⟨o, ho, hgt⟩ := h
  rw [beq_ord_iff] at hgt
  subst hgt
  rw [noGt, List.all_eq_false]
  exact ⟨.gt, ho, by simp⟩

theorem allEq_of_noGt_of_noLt (os : List Ordering) (hg : noGt os = true)
    (hl : noLt os = true) : allEq os = true := by
  rw [noGt, List.all_eq_true] at hg
  rw [noLt, List.all_eq_true] at hl
  rw [allEq, List.all_eq_true]
  intro o ho
  have h1 := hg o ho
  have h2 := hl o ho
  cases o
  · simp at h2
  · rfl
  · simp at h1

/-- Case analysis of the classifier on any sequence of length at least 2. -/
theorem classifyList_cases [LinearOrder α] (l : List α) (h : 2 ≤ l.length) :
    classifyList l =
      if allEq (ordsOf l) then .NotMonotonic
      else if noGt (ordsOf l) then .Rising (allLt (ordsOf l))
      else if noLt (ordsOf l) then .Falling (allGt (ordsOf l))
      else .NotMonotonic := by
  have h1 : ¬ l.length ≤ 1 := by omega
  have hos := ordsOf_isEmpty_false l h
  by_cases hA : allEq (ordsOf l) = true
  · simp [classifyList, classifyOrds, h1, hos, hA]
  · by_cases hG : noGt (ordsOf l) = true
    · simp [classifyList, classifyOrds, h1, hos, hA, hG]
    · by_cases hL : noLt (ordsOf l) = true
      · simp [classifyList, classifyOrds, h1, hos, hA, hG, hL]
      · simp [classifyList, classifyOrds, h1, hos, hA, hG, hL]

theorem classifyList_rising_iff [LinearOrder α] (l : List α)
    (h : 2 ≤ l.length) (s : Bool) :
    classifyList l = .Rising s ↔
      (noGt (ordsOf l) = true ∧ anyLt (ordsOf l) = true ∧
        s = allLt (ordsOf l)) := by
  rw [classifyList_cases l h]
  by_cases hA : allEq (ordsOf l) = true
  · simp [hA, anyLt_eq_false_of_allEq _ hA]
  · rw [Bool.not_eq_true] at hA
    by_cases hG : noGt (ordsOf l) = true
    · have hlt := anyLt_of_noGt_not_allEq _ hG hA
      simp [hA, hG, hlt, Monotonic.Rising.injEq, eq_comm]
    · by_cases hL : noLt (ordsOf l) = true <;> simp [hA, hG, hL]

theorem classifyList_falling_iff [LinearOrder α] (l : List α)
    (h : 2 ≤ l.length) (s : Bool) :
    classifyList l = .Falling s ↔
      (noLt (ordsOf l) = true ∧ anyGt (ordsOf l) = true ∧
        s = allGt (ordsOf l)) := by
  rw [classifyList_cases l h]
  by_cases hA : allEq (ordsOf l) = true
  · simp [hA, anyGt_eq_false_of_allEq _ hA]
  · rw [Bool.not_eq_true] at hA
    by_cases hG : noGt (ordsOf l) = true
    · have hlt := anyLt_of_noGt_not_allEq _ hG hA
      have := noLt_eq_false_of_anyLt _ hlt
      simp [hA, hG, this]
    · by_cases hL : noLt (ordsOf l) = true
      · have hgt := anyGt_of_noLt_not_allEq _ hL hA
        simp [hA, hG, hL, hgt, Monotonic.Falling.injEq, eq_comm]
      · simp [hA, hG, hL]

theorem classifyList_notMonotonic_iff [LinearOrder α] (l : List α)
    (h : 2 ≤ l.length) :
    classifyList l = .NotMonotonic ↔
      (allEq (ordsOf l) = true ∨
        (anyLt (ordsOf l) = true ∧ anyGt (ordsOf l) = true)) := by
  rw [classifyList_cases l h]
  by_cases hA : allEq (ordsOf l) = true
  · simp [hA]
  · rw [Bool.not_eq_true] at hA
    by_cases hG : noGt (ordsOf l) = true
    · have hlt := anyLt_of_noGt_not_allEq _ hG hA
      have hng : anyGt (ordsOf l) = false := by
        rcases hq : anyGt (ordsOf l) with _ | _
        · rfl
        · exact absurd hG (by simp [noGt_eq_false_of_anyGt _ hq])
      simp [hA, hG, hlt, hng]
    · by_cases hL : noLt (ordsOf l) = true
      · have hgt := anyGt_of_noLt_not_allEq _ hL hA
        have hnl : anyLt (ordsOf l) = false := by
          rcases hq : anyLt (ordsOf l) with _ | _
          · rfl
          · exact absurd hL (by simp [noLt_eq_false_of_anyLt _ hq])
        simp [hA, hG, hL, hgt, hnl]
      · have hgt : anyGt (ordsOf l) = true := by
          rcases hq : anyGt (ordsOf l) with _ | _
          · refine absurd ?_ hG
            rw [noGt, List.all_eq_true]
            intro o ho
            rw [anyGt, List.any_eq_false] at hq
            have hqo := hq o ho
            cases o
            · rfl
            · rfl
            · exact absurd rfl hqo
          · rfl
        have hlt : anyLt (ordsOf l) = true := by
          rcases hq : anyLt (ordsOf l) with _ | _
          · refine absurd ?_ hL
            rw [noLt, List.all_eq_true]
            intro o ho
            rw [anyLt, List.any_eq_false] at hq
            have hqo := hq o ho
            cases o
            · exact absurd rfl hqo
            · rfl
            · rfl
          · rfl
        simp [hA, hG, hL, hgt, hlt]

/-- C1: for every sequence of length at least 2 over a totally ordered
element type, monotonic_prop returns Rising strict iff every adjacent pair
(a, b) satisfies a ≤ b and at least one adjacent pair satisfies a < b, and
in that case strict is true iff every adjacent pair satisfies a < b (no
equal-valued neighbors anywhere). -/
theorem claim1_rising [LinearOrder α] (l : List α) (h : 2 ≤ l.length)
    (s : Bool) :
    monotonic_prop cmpLin l = some (.Rising s) ↔
      ((∀ p ∈ pairsOf l, p.1 ≤ p.2) ∧ (∃ p ∈ pairsOf l, p.1 < p.2) ∧
        (s = true ↔ ∀ p ∈ pairsOf l, p.1 < p.2)) := by
  rw [monotonic_prop_eq_classifyList, Option.some.injEq,
    classifyList_rising_iff l h s, noGt_iff, anyLt_iff, ← allLt_iff]
  constructor
  · rintro ⟨h1, h2, h3⟩
    exact ⟨h1, h2, by rw [h3]⟩
  · rintro ⟨h1, h2, h3⟩
    exact ⟨h1, h2, Bool.eq_iff_iff.mpr h3⟩

/-- C1 witness at the concrete input [1, 2, 2, 4]. -/
theorem claim1_rising_witness :
    2 ≤ ([1, 2, 2, 4] : List Int).length ∧
      monotonic_prop cmpLin ([1, 2, 2, 4] : List Int) =
        some (.Rising false) :=
  ⟨by decide, (claim1_rising [1, 2, 2, 4] (by decide) false).mpr
    ⟨by decide, by decide, by decide⟩⟩

/-- C2: for every sequence of length at least 2 over a totally ordered
element type, monotonic_prop returns Falling strict iff every adjacent pair
(a, b) satisfies a ≥ b and at least one adjacent pair satisfies a > b, and
in that case strict is true iff every adjacent pair satisfies a > b. -/
theorem claim2_falling [LinearOrder α] (l : List α) (h : 2 ≤ l.length)
    (s : Bool) :
    monotonic_prop cmpLin l = some (.Falling s) ↔
      ((∀ p ∈ pairsOf l, p.2 ≤ p.1) ∧ (∃ p ∈ pairsOf l, p.2 < p.1) ∧
        (s = true ↔ ∀ p ∈ pairsOf l, p.2 < p.1)) := by
  rw [monotonic_prop_eq_classifyList, Option.some.injEq,
    classifyList_falling_iff l h s, noLt_iff, anyGt_iff, ← allGt_iff]
  constructor
  · rintro ⟨h1, h2, h3⟩
    exact ⟨h1, h2, by rw [h3]⟩
  · rintro ⟨h1, h2, h3⟩
    exact ⟨h1, h2, Bool.eq_iff_iff.mpr h3⟩

/-- C2 witness at the concrete input [4, 2, 2, 1]. -/
theorem claim2_falling_witness :
    2 ≤ ([4, 2, 2, 1] : List Int).length ∧
      monotonic_prop cmpLin ([4, 2, 2, 1] : List Int) =
        some (.Falling false) :=
  ⟨by decide, (claim2_falling [4, 2, 2, 1] (by decide) false).mpr
    ⟨by decide, by decide, by decide⟩⟩

/-- C3: for every sequence over a totally ordered element type,
monotonic_prop returns NotMonotonic iff the sequence has fewer than 2
elements, or every adjacent pair is equal (fully flat, length at least 2),
or it contains both a strictly increasing and a strictly decreasing
adjacent pair. -/
theorem claim3_notMonotonic [LinearOrder α] (l : List α) :
    monotonic_prop cmpLin l = some .NotMonotonic ↔
      (l.length < 2 ∨
        (2 ≤ l.length ∧ ∀ p ∈ pairsOf l, p.1 = p.2) ∨
        ((∃ p ∈ pairsOf l, p.1 < p.2) ∧ (∃ p ∈ pairsOf l, p.2 < p.1))) := by
  rw [monotonic_prop_eq_classifyList, Option.some.injEq]
  by_cases h : 2 ≤ l.length
  · rw [classifyList_notMonotonic_iff l h, allEq_iff, anyLt_iff, anyGt_iff]
    constructor
    · rintro (h1 | h1)
      · exact Or.inr (Or.inl ⟨h, h1⟩)
      · exact Or.inr (Or.inr h1)
    · rintro (h1 | ⟨_, h1⟩ | h1)
      · omega
      · exact Or.inl h1
      · exact Or.inr h1
  · have h1 : l.length ≤ 1 := by omega
    have hc : classifyList l = .NotMonotonic := by simp [classifyList, h1]
    constructor
    · intro _
      exact Or.inl (by omega)
    · intro _
      exact hc

theorem specRun_terminated : ∀ os : List Ordering,
    specRun .Terminated os = .Terminated := by
  intro os
  induction os with
  | nil => rfl
  | cons o os ih => cases o <;> rfl

theorem excMap_runOrds_eq_specRun :
    ∀ (os : List Ordering) (s : State), goodState s →
      excMap (runOrds s os) = specRun (stMap s) os := by
  intro os
  induction os with
  | nil => intro s _; rfl
  | cons o os ih =>
    intro s hs
    rcases s with _ | _ | m
    · cases o
      · exact ih (.Known (.Rising true)) (by simp [goodState])
      · exact ih .NotStrict (by simp [goodState])
      · exact ih (.Known (.Falling true)) (by simp [goodState])
    · cases o
      · exact ih (.Known (.Rising false)) (by simp [goodState])
      · exact ih .NotStrict (by simp [goodState])
      · exact ih (.Known (.Falling false)) (by simp [goodState])
    · rcases m with b | b | _
      · cases o
        · exact ih (.Known (.Rising b)) (by simp [goodState])
        · exact ih (.Known (.Rising false)) (by simp [goodState])
        · rfl
      · cases o
        · rfl
        · exact ih (.Known (.Falling false)) (by simp [goodState])
        · exact ih (.Known (.Falling b)) (by simp [goodState])
      · exact absurd rfl hs

/-- C4: the fold of the code implements exactly the reference state machine
of the specification: mapped through the state correspondence, the fold
from Init equals the machine run from Undetermined on the comparison
outcomes of every sequence, and the full function equals the full
specification classification. -/
theorem claim4_refines_spec [LinearOrder α] (l : List α) :
    excMap (runOrds .Init (ordsOf l)) = specRun .Undetermined (ordsOf l) ∧
      monotonic_prop cmpLin l = some (specClassify l) := by
  have hcomm : excMap (runOrds .Init (ordsOf l)) =
      specRun .Undetermined (ordsOf l) :=
    excMap_runOrds_eq_specRun (ordsOf l) .Init (by simp [goodState])
  refine ⟨hcomm, ?_⟩
  rw [monotonic_prop_eq_classifyList, Option.some.injEq]
  unfold classifyList specClassify
  by_cases h1 : l.length ≤ 1
  · simp [h1]
  · simp only [h1, if_false]
    rw [← runOrds_init, ← hcomm]
    generalize runOrds .Init (ordsOf l) = r
    rcases r with m | s
    · rfl
    · rcases s with _ | _ | m
      · rfl
      · rfl
      · rcases m with b | b | _ <;> rfl

theorem ordOf_flip [LinearOrder α] (a b : α) :
    ordOf b a = flipOrd (ordOf a b) := by
  rcases lt_trichotomy a b with h | h | h
  · rw [show ordOf a b = .lt from (ordOf_eq_lt a b).mpr h,
      show ordOf b a = .gt from (ordOf_eq_gt b a).mpr h]
    rfl
  · subst h
    rw [show ordOf a a = .eq from (ordOf_eq_eq a a).mpr rfl]
    rfl
  · rw [show ordOf a b = .gt from (ordOf_eq_gt a b).mpr h,
      show ordOf b a = .lt from (ordOf_eq_lt b a).mpr h]
    rfl

theorem pairsOf_append_single : ∀ (l : List α) (x : α),
    pairsOf (l ++ [x]) = pairsOf l ++
      (match l.getLast? with
        | none => []
        | some y => [(y, x)]) := by
  intro l
  induction l with
  | nil => intro x; rfl
  | cons a tail ih =>
    intro x
    cases tail with
    | nil => rfl
    | cons b rest =>
      have h1 : pairsOf ((a :: b :: rest) ++ [x]) =
          (a, b) :: pairsOf ((b :: rest) ++ [x]) := rfl
      rw [h1, ih x]
      rfl

theorem pairsOf_reverse : ∀ l : List α,
    pairsOf l.reverse = ((pairsOf l).map Prod.swap).reverse := by
  intro l
  induction l with
  | nil => rfl
  | cons a tail ih =>
    cases tail with
    | nil => rfl
    | cons b rest =>
      rw [List.reverse_cons, pairsOf_append_single, ih,
        List.getLast?_reverse]
      have h2 : (b :: rest).head? = some b := rfl
      rw [h2]
      have h3 : pairsOf (a :: b :: rest) = (a, b) :: pairsOf (b :: rest) := rfl
      rw [h3, List.map_cons, List.reverse_cons]
      rfl

theorem ordsOf_reverse [LinearOrder α] (l : List α) :
    ordsOf l.reverse = ((ordsOf l).map flipOrd).reverse := by
  rw [ordsOf, ordsOf, pairsOf_reverse, List.map_reverse, List.map_map,
    List.map_map]
  congr 1
  apply List.map_eq_map_iff.mpr
  intro p _
  simp only [Function.comp_apply, Prod.fst_swap, Prod.snd_swap]
  exact ordOf_flip p.1 p.2

theorem all_flip_eq (q r : Ordering → Bool) (h : ∀ o, q (flipOrd o) = r o) :
    ∀ os : List Ordering, ((os.map flipOrd).reverse).all q = os.all r := by
  intro os
  induction os with
  | nil => rfl
  | cons o os ih =>
    simp only [List.map_cons, List.reverse_cons, List.all_append,
      List.all_cons, List.all_nil, ih, h o, Bool.and_true]
    exact Bool.and_comm _ _

theorem allEq_flip (os : List Ordering) :
    allEq ((os.map flipOrd).reverse) = allEq os :=
  all_flip_eq _ _ (fun o => by cases o <;> rfl) os

theorem noGt_flip (os : List Ordering) :
    noGt ((os.map flipOrd).reverse) = noLt os :=
  all_flip_eq _ _ (fun o => by cases o <;> rfl) os

theorem noLt_flip (os : List Ordering) :
    noLt ((os.map flipOrd).reverse) = noGt os :=
  all_flip_eq _ _ (fun o => by cases o <;> rfl) os

theorem allLt_flip (os : List Ordering) :
    allLt ((os.map flipOrd).reverse) = allGt os :=
  all_flip_eq _ _ (fun o => by cases o <;> rfl) os

theorem allGt_flip (os : List Ordering) :
    allGt ((os.map flipOrd).reverse) = allLt os :=
  all_flip_eq _ _ (fun o => by cases o <;> rfl) os

theorem classifyList_reverse [LinearOrder α] (l : List α) :
    classifyList l.reverse = mirrorMono (classifyList l) := by
  by_cases h : 2 ≤ l.length
  · rw [classifyList_cases l h, classifyList_cases l.reverse (by simpa using h),
      ordsOf_reverse, allEq_flip, noGt_flip, noLt_flip, allLt_flip, allGt_flip]
    by_cases hA : allEq (ordsOf l) = true
    · simp [hA, mirrorMono]
    · by_cases hG : noGt (ordsOf l) = true
      · have hlt := anyLt_of_noGt_not_allEq _ hG
          (by rw [← Bool.not_eq_true]; exact hA)
        have hnl := noLt_eq_false_of_anyLt _ hlt
        simp [hA, hG, hnl, mirrorMono]
      · by_cases hL : noLt (ordsOf l) = true
        · simp [hA, hG, hL, mirrorMono]
        · simp [hA, hG, hL, mirrorMono]
  · have h1 : l.length ≤ 1 := by omega
    have h2 : l.reverse.length ≤ 1 := by simpa using h1
    simp [classifyList, h1, h2, mirrorMono]

/-- C5: reversal symmetry on a totally ordered element type: a sequence
classified Rising with strictness b is classified Falling with the same b
when the same elements are traversed in reverse order, and vice versa, and
a NotMonotonic sequence stays NotMonotonic under reversal. -/
theorem claim5_reversal [LinearOrder α] (l : List α) :
    (∀ b, monotonic_prop cmpLin l = some (.Rising b) →
      monotonic_prop cmpLin l.reverse = some (.Falling b)) ∧
    (∀ b, monotonic_prop cmpLin l = some (.Falling b) →
      monotonic_prop cmpLin l.reverse = some (.Rising b)) ∧
    (monotonic_prop cmpLin l = some .NotMonotonic →
      monotonic_prop cmpLin l.reverse = some .NotMonotonic) := by
  rw [monotonic_prop_eq_classifyList, monotonic_prop_eq_classifyList,
    classifyList_reverse]
  refine ⟨?_, ?_, ?_⟩
  · intro b hb
    rw [Option.some.injEq] at hb
    rw [hb]
    rfl
  · intro b hb
    rw [Option.some.injEq] at hb
    rw [hb]
    rfl
  · intro hb
    rw [Option.some.injEq] at hb
    rw [hb]
    rfl

/-- C5 witness: reversing the strictly falling [3, 2, 1] gives strictly
rising. -/
theorem claim5_reversal_witness :
    monotonic_prop cmpLin (([3, 2, 1] : List Int).reverse) =
      some (.Rising true) :=
  (claim5_reversal ([3, 2, 1] : List Int)).2.1 true (by decide)

theorem runOrds_nonStrict : ∀ (os : List Ordering) (s r : State),
    nonStrictState s → runOrds s os = .ok r → nonStrictState r := by
  intro os
  induction os with
  | nil =>
    intro s r hs h
    injection h with h
    subst h
    exact hs
  | cons o os ih =>
    intro s r hs h
    rcases hs with hs | hs | hs <;> subst hs <;> cases o
    · exact ih _ r (Or.inr (Or.inl rfl)) h
    · exact ih _ r (Or.inl rfl) h
    · exact ih _ r (Or.inr (Or.inr rfl)) h
    · exact ih _ r (Or.inr (Or.inl rfl)) h
    · exact ih _ r (Or.inr (Or.inl rfl)) h
    · exact absurd h (by simp [runOrds, stepOrd])
    · exact absurd h (by simp [runOrds, stepOrd])
    · exact ih _ r (Or.inr (Or.inr rfl)) h
    · exact ih _ r (Or.inr (Or.inr rfl)) h

theorem allLt_eq_false_of_flat_pair [LinearOrder α] (l : List α)
    (h : ∃ p ∈ pairsOf l, p.1 = p.2) : allLt (ordsOf l) = false := by
  obtain ⟨p, hp, hpe⟩ := h
  rw [allLt, List.all_eq_false]
  refine ⟨ordOf p.1 p.2, List.mem_map_of_mem _ hp, ?_⟩
  rw [(ordOf_eq_eq p.1 p.2).mpr hpe]
  simp

theorem allGt_eq_false_of_flat_pair [LinearOrder α] (l : List α)
    (h : ∃ p ∈ pairsOf l, p.1 = p.2) : allGt (ordsOf l) = false := by
  obtain ⟨p, hp, hpe⟩ := h
  rw [allGt, List.all_eq_false]
  refine ⟨ordOf p.1 p.2, List.mem_map_of_mem _ hp, ?_⟩
  rw [(ordOf_eq_eq p.1 p.2).mpr hpe]
  simp

/-- C6: strictness is sticky-downward: when some adjacent pair is equal,
any Rising or Falling result carries strict = false; and a state recording
non-strictness is never upgraded by the rest of the fold. -/
theorem claim6_sticky [LinearOrder α] (l : List α)
    (h : ∃ p ∈ pairsOf l, p.1 = p.2) :
    (∀ b : Bool,
      (monotonic_prop cmpLin l = some (.Rising b) ∨
        monotonic_prop cmpLin l = some (.Falling b)) → b = false) ∧
    (∀ (os : List Ordering) (s r : State), nonStrictState s →
      runOrds s os = .ok r → nonStrictState r) := by
  refine ⟨?_, runOrds_nonStrict⟩
  have hlen : 2 ≤ l.length := by
    obtain ⟨p, hp, _⟩ := h
    have hne : pairsOf l ≠ [] := by
      intro he
      rw [he] at hp
      exact absurd hp (List.not_mem_nil p)
    have hpos : 0 < (pairsOf l).length := List.length_pos.mpr hne
    rw [pairsOf_length] at hpos
    omega
  intro b hb
  rcases hb with hb | hb
  · rw [monotonic_prop_eq_classifyList, Option.some.injEq,
      classifyList_rising_iff l hlen b] at hb
    obtain ⟨_, _, hstrict⟩ := hb
    rw [allLt_eq_false_of_flat_pair l h] at hstrict
    exact hstrict
  · rw [monotonic_prop_eq_classifyList, Option.some.injEq,
      classifyList_falling_iff l hlen b] at hb
    obtain ⟨_, _, hstrict⟩ := hb
    rw [allGt_eq_false_of_flat_pair l h] at hstrict
    exact hstrict

/-- C6 witness: [1, 1, 2] has an equal adjacent pair and is classified
Rising with strict = false. -/
theorem claim6_sticky_witness :
    (monotonic_prop cmpLin ([1, 1, 2] : List Int) = some (.Rising false) ∨
      monotonic_prop cmpLin ([1, 1, 2] : List Int) = some (.Falling false)) ∧
    false = false :=
  ⟨Or.inl (by decide),
    (claim6_sticky ([1, 1, 2] : List Int) (by decide)).1 false
      (Or.inl (by decide))⟩

theorem windows2_length : ∀ l : List α, (windows2 l).length = l.length - 1 := by
  intro l
  induction l with
  | nil => rfl
  | cons a tail ih =>
    cases tail with
    | nil => rfl
    | cons b rest =>
      show (windows2 (b :: rest)).length + 1 = _
      rw [ih]
      simp

theorem windows2_shape : ∀ (l : List α) (w : List α), w ∈ windows2 l →
    ∃ a b, w = [a, b] := by
  intro l
  induction l with
  | nil => intro w hw; exact absurd hw (List.not_mem_nil w)
  | cons a tail ih =>
    cases tail with
    | nil => intro w hw; exact absurd hw (List.not_mem_nil w)
    | cons b rest =>
      intro w hw
      rcases List.mem_cons.mp hw with hw | hw
      · exact ⟨a, b, hw⟩
      · exact ih w hw

theorem stepState_total (cmp : α → α → Option Ordering) (s : State)
    (hs : goodState s) (a b : α) :
    (∃ m, stepState cmp s a b = some (.error m)) ∨
    (∃ s1, stepState cmp s a b = some (.ok s1) ∧ goodState s1) := by
  rcases s with _ | _ | m
  · have hstep : stepState cmp State.Init a b =
        (if cmp a b = some Ordering.lt then
          some (Except.ok (State.Known (Monotonic.Rising true)))
        else if cmp a b = some Ordering.eq then some (Except.ok State.NotStrict)
        else some (Except.ok (State.Known (Monotonic.Falling true)))) := rfl
    rw [hstep]
    split_ifs
    · exact Or.inr ⟨_, rfl, by simp [goodState]⟩
    · exact Or.inr ⟨_, rfl, by simp [goodState]⟩
    · exact Or.inr ⟨_, rfl, by simp [goodState]⟩
  · have hstep : stepState cmp State.NotStrict a b =
        (if cmp a b = some Ordering.lt then
          some (Except.ok (State.Known (Monotonic.Rising false)))
        else if cmp a b = some Ordering.eq then some (Except.ok State.NotStrict)
        else some (Except.ok (State.Known (Monotonic.Falling false)))) := rfl
    rw [hstep]
    split_ifs
    · exact Or.inr ⟨_, rfl, by simp [goodState]⟩
    · exact Or.inr ⟨_, rfl, by simp [goodState]⟩
    · exact Or.inr ⟨_, rfl, by simp [goodState]⟩
  · rcases m with b1 | b1 | _
    · have hstep : stepState cmp (State.Known (Monotonic.Rising b1)) a b =
          (if cmp a b = some Ordering.eq then
            some (Except.ok (State.Known (Monotonic.Rising false)))
          else if cmp a b = some Ordering.lt then
            some (Except.ok (State.Known (Monotonic.Rising b1)))
          else some (Except.error Monotonic.NotMonotonic)) := rfl
      rw [hstep]
      split_ifs
      · exact Or.inr ⟨_, rfl, by simp [goodState]⟩
      · exact Or.inr ⟨_, rfl, by simp [goodState]⟩
      · exact Or.inl ⟨_, rfl⟩
    · have hstep : stepState cmp (State.Known (Monotonic.Falling b1)) a b =
          (if cmp a b = some Ordering.eq then
            some (Except.ok (State.Known (Monotonic.Falling false)))
          else if cmp a b = some Ordering.gt then
            some (Except.ok (State.Known (Monotonic.Falling b1)))
          else some (Except.error Monotonic.NotMonotonic)) := rfl
      rw [hstep]
      split_ifs
      · exact Or.inr ⟨_, rfl, by simp [goodState]⟩
      · exact Or.inr ⟨_, rfl, by simp [goodState]⟩
      · exact Or.inl ⟨_, rfl⟩
    · exact absurd rfl hs

theorem tryFoldWindows_isSome (cmp : α → α → Option Ordering) :
    ∀ (ws : List (List α)) (s : State), goodState s →
      (∀ w ∈ ws, ∃ a b, w = [a, b]) →
      (tryFoldWindows cmp s ws).isSome = true := by
  intro ws
  induction ws with
  | nil => intro s _ _; rfl
  | cons w ws ih =>
    intro s hs hwin
    obtain ⟨a, b, rfl⟩ := hwin w (List.mem_cons_self w ws)
    have hw : stepWindow cmp s [a, b] = stepState cmp s a b := rfl
    rcases stepState_total cmp s hs a b with ⟨m, hm⟩ | ⟨s1, hs1, hg⟩
    · rw [tryFoldWindows, hw, hm]
      rfl
    · rw [tryFoldWindows, hw, hs1]
      exact ih s1 hg (fun w1 hw1 => hwin w1 (List.mem_cons_of_mem _ hw1))

theorem countSteps_le (cmp : α → α → Option Ordering) :
    ∀ (ws : List (List α)) (s : State), countSteps cmp s ws ≤ ws.length := by
  intro ws
  induction ws with
  | nil => intro s; exact Nat.le_refl 0
  | cons w ws ih =>
    intro s
    rcases hsw : stepWindow cmp s w with _ | r
    · rw [countSteps, hsw]
      simp
    · rcases r with m | s1
      · rw [countSteps, hsw]
        simp
      · rw [countSteps, hsw]
        have := ih s1
        simp only [List.length_cons]
        omega

theorem countSteps_eq_of_ok (cmp : α → α → Option Ordering) :
    ∀ (ws : List (List α)) (s s1 : State),
      tryFoldWindows cmp s ws = some (.ok s1) →
      countSteps cmp s ws = ws.length := by
  intro ws
  induction ws with
  | nil => intro s s1 _; rfl
  | cons w ws ih =>
    intro s s1 h
    rcases hsw : stepWindow cmp s w with _ | r
    · rw [tryFoldWindows, hsw] at h
      simp at h
    · rcases r with m | s2
      · rw [tryFoldWindows, hsw] at h
        simp at h
      · rw [tryFoldWindows, hsw] at h
        rw [countSteps, hsw]
        show 1 + countSteps cmp s2 ws = (w :: ws).length
        rw [ih s2 s1 h, List.length_cons]
        omega

/-- C7: totality and bounds: on every input and every comparison function
the embedded monotonic_prop returns a value (no panic, so no out-of-bounds
window access), there are exactly length - 1 adjacent-pair windows, the
number of comparisons performed never exceeds length - 1, and it equals
length - 1 whenever the fold completes without a contradiction. -/
theorem claim7_totality (cmp : α → α → Option Ordering) (l : List α) :
    (monotonic_prop cmp l).isSome = true ∧
    (windows2 l).length = l.length - 1 ∧
    countComparisons cmp l ≤ l.length - 1 ∧
    (∀ s : State, tryFoldWindows cmp .Init (windows2 l) = some (.ok s) →
      countComparisons cmp l = l.length - 1) := by
  have hwin := windows2_shape l
  have hlen := windows2_length l
  refine ⟨?_, hlen, ?_, ?_⟩
  · unfold monotonic_prop
    by_cases h1 : l.length ≤ 1
    · simp [h1]
    · simp only [h1, if_false]
      have hsome := tryFoldWindows_isSome cmp (windows2 l) .Init
        (by simp [goodState]) hwin
      rcases hq : tryFoldWindows cmp .Init (windows2 l) with _ | r
      · rw [hq] at hsome
        simp at hsome
      · rfl
  · unfold countComparisons
    by_cases h1 : l.length ≤ 1
    · simp [h1]
    · simp only [h1, if_false]
      rw [← hlen]
      exact countSteps_le cmp (windows2 l) .Init
  · intro s hok
    unfold countComparisons
    by_cases h1 : l.length ≤ 1
    · simp only [h1, if_true]
      omega
    · simp only [h1, if_false]
      rw [countSteps_eq_of_ok cmp (windows2 l) .Init s hok, hlen]

/-- C7 witness at [1, 2, 3]: a value is returned and both comparisons are
performed. -/
theorem claim7_totality_witness :
    (monotonic_prop cmpLin ([1, 2, 3] : List Int)).isSome = true ∧
      countComparisons cmpLin ([1, 2, 3] : List Int) = 2 :=
  ⟨(claim7_totality cmpLin ([1, 2, 3] : List Int)).1,
    (claim7_totality cmpLin ([1, 2, 3] : List Int)).2.2.2
      (.Known (.Rising true)) rfl⟩

theorem elems_length (v : ArrayView α) : v.elems.length = v.len := by
  simp [ArrayView.elems]

theorem lookup_eq_of_elems_eq (v w : ArrayView α) (h : v.elems = w.elems) :
    ∀ i, i < v.len → v.lookup i = w.lookup i := by
  intro i hi
  have hlen : w.len = v.len := by rw [← elems_length v, ← elems_length w, h]
  have h1 : v.elems.get? i = some (v.lookup i) := by
    rw [ArrayView.elems, List.get?_map, List.get?_range hi]
    rfl
  have h2 : w.elems.get? i = some (w.lookup i) := by
    rw [ArrayView.elems, List.get?_map, List.get?_range (by omega)]
    rfl
  rw [h] at h1
  exact Option.some.inj (h1.symm.trans h2)

theorem tryFoldIdx_congr (cmp : α → α → Option Ordering)
    (v w : ArrayView α) (hl : ∀ i, i < v.len → v.lookup i = w.lookup i) :
    ∀ (idxs : List Nat) (s : State), (∀ i ∈ idxs, i + 1 < v.len) →
      tryFoldIdx cmp v s idxs = tryFoldIdx cmp w s idxs := by
  intro idxs
  induction idxs with
  | nil => intro s _; rfl
  | cons i idxs ih =>
    intro s hbound
    have hi1 : i + 1 < v.len := hbound i (List.mem_cons_self i idxs)
    have e1 : v.lookup i = w.lookup i := hl i (by omega)
    have e2 : v.lookup (i + 1) = w.lookup (i + 1) := hl (i + 1) hi1
    have estep : stepIdx cmp v s i = stepIdx cmp w s i := by
      rw [stepIdx, stepIdx, e1, e2]
    rw [tryFoldIdx, tryFoldIdx, estep]
    rcases hq : stepIdx cmp w s i with _ | r
    · rfl
    · rcases r with m | s1
      · rfl
      · exact ih s1 (fun j hj => hbound j (List.mem_cons_of_mem i hj))

/-- C8: purity with respect to storage layout: the classification of a
strided view is a function only of its elements in traversal order, so two
views (for example a contiguous array and a reversed-storage view) whose
traversals agree classify equally on every call. -/
theorem claim8_pure_view (cmp : α → α → Option Ordering)
    (v w : ArrayView α) (h : v.elems = w.elems) :
    monotonic_propView cmp v = monotonic_propView cmp w := by
  have hlen : w.len = v.len := by rw [← elems_length v, ← elems_length w, h]
  have hl := lookup_eq_of_elems_eq v w h
  rw [monotonic_propView, monotonic_propView, hlen]
  by_cases h1 : v.len ≤ 1
  · simp [h1]
  · simp only [h1, if_false]
    have heq : tryFoldIdx cmp v .Init (List.range (v.len - 1)) =
        tryFoldIdx cmp w .Init (List.range (v.len - 1)) :=
      tryFoldIdx_congr cmp v w hl (List.range (v.len - 1)) .Init
        (fun i hi => by
          have := List.mem_range.mp hi
          omega)
    rw [heq]

/-- C8 witness: the reversed-storage view of [5,4,3,2,1] and the contiguous
[1,2,3,4,5] traverse the same elements and classify equally. -/
theorem claim8_pure_view_witness :
    ArrayView.elems viewA = ArrayView.elems viewB ∧
      monotonic_propView cmpLin viewA = monotonic_propView cmpLin viewB :=
  ⟨by decide, claim8_pure_view cmpLin viewA viewB (by decide)⟩

/-- C9: on a two-element sequence whose pair is incomparable (lt, eq and gt
all fail, as for a NaN), the final else branch of the Init arm classifies
the pair as Falling with strict = true. -/
theorem claim9_incomparable (cmp : α → α → Option Ordering) (a b : α)
    (h : cmp a b = none) :
    monotonic_prop cmp [a, b] = some (.Falling true) := by
  have h2 : ¬ ([a, b] : List α).length ≤ 1 := by simp
  rw [monotonic_prop, if_neg h2]
  have hw : windows2 [a, b] = [[a, b]] := rfl
  rw [hw]
  have hstep : stepWindow cmp .Init [a, b] = stepState cmp .Init a b := rfl
  rw [tryFoldWindows, hstep]
  have hval : stepState cmp .Init a b =
      some (.ok (.Known (.Falling true))) := by
    have e : stepState cmp State.Init a b =
        (if cmp a b = some Ordering.lt then
          some (Except.ok (State.Known (Monotonic.Rising true)))
        else if cmp a b = some Ordering.eq then some (Except.ok State.NotStrict)
        else some (Except.ok (State.Known (Monotonic.Falling true)))) := rfl
    rw [e, h]
    simp
  rw [hval]
  rfl

/-- C9 witness with the everywhere-incomparable comparison. -/
theorem claim9_incomparable_witness :
    monotonic_prop cmpNone [(), ()] = some (.Falling true) :=
  claim9_incomparable cmpNone () () rfl

theorem foldTrace_good (cmp : α → α → Option Ordering) :
    ∀ (ws : List (List α)) (s : State), goodState s →
      (∀ w ∈ ws, ∃ a b, w = [a, b]) →
      ∀ t ∈ foldTrace cmp s ws, goodState t := by
  intro ws
  induction ws with
  | nil =>
    intro s hs _ t ht
    rw [foldTrace, List.mem_singleton] at ht
    subst ht
    exact hs
  | cons w ws ih =>
    intro s hs hwin t ht
    obtain ⟨a, b, hab⟩ := hwin w (List.mem_cons_self w ws)
    subst hab
    rw [foldTrace] at ht
    rcases List.mem_cons.mp ht with h1 | h1
    · subst h1
      exact hs
    · rcases stepState_total cmp s hs a b with ⟨m, hm⟩ | ⟨s1, hs1, hg⟩
      · have hsw : stepWindow cmp s [a, b] = some (.error m) := hm
        rw [hsw] at h1
        simp at h1
      · have hsw : stepWindow cmp s [a, b] = some (.ok s1) := hs1
        rw [hsw] at h1
        exact ih s1 hg (fun w1 hw1 => hwin w1 (List.mem_cons_of_mem _ hw1)) t h1

/-- C10: the two window accesses always find an element, the accumulator is
never Known NotMonotonic anywhere along the fold, and the fold returns
without reaching any unreachable arm, on every input and comparison
function. -/
theorem claim10_unreachable (cmp : α → α → Option Ordering) (l : List α) :
    (∀ w ∈ windows2 l, (w.get? 0).isSome = true ∧ (w.get? 1).isSome = true) ∧
    (∀ t ∈ foldTrace cmp .Init (windows2 l),
      t ≠ State.Known .NotMonotonic) ∧
    (tryFoldWindows cmp .Init (windows2 l)).isSome = true := by
  refine ⟨?_, ?_, ?_⟩
  · intro w hw
    obtain ⟨a, b, hab⟩ := windows2_shape l w hw
    subst hab
    exact ⟨rfl, rfl⟩
  · intro t ht
    exact foldTrace_good cmp (windows2 l) .Init (by simp [goodState])
      (windows2_shape l) t ht
  · exact tryFoldWindows_isSome cmp (windows2 l) .Init (by simp [goodState])
      (windows2_shape l)

/-- C10 witness at [1, 2, 1], whose fold errors and still never reaches an
unreachable arm. -/
theorem claim10_unreachable_witness :
    ((([1, 2] : List Int).get? 0).isSome = true ∧
      (([1, 2] : List Int).get? 1).isSome = true) ∧
      (tryFoldWindows cmpLin .Init
        (windows2 ([1, 2, 1] : List Int))).isSome = true :=
  ⟨(claim10_unreachable cmpLin ([1, 2, 1] : List Int)).1 [1, 2] (by decide),
    (claim10_unreachable cmpLin ([1, 2, 1] : List Int)).2.2⟩

theorem mkView_lookup (l : List α) (i : Nat) :
    (mkView l).lookup i = l.get? i := by
  unfold ArrayView.lookup mkView
  have h0 : ((0 : Nat) : Int) + (i : Int) * (1 : Int) = (i : Int) := by ring
  rw [h0]
  rw [if_pos (by positivity)]
  simp

theorem tryFoldWindows_eq_tryFoldPairs (cmp : α → α → Option Ordering) :
    ∀ (l : List α) (s : State),
      tryFoldWindows cmp s (windows2 l) = tryFoldPairs cmp s (pairsOf l) := by
  intro l
  induction l with
  | nil => intro s; rfl
  | cons a tail ih =>
    intro s
    cases tail with
    | nil => rfl
    | cons b rest =>
      show tryFoldWindows cmp s ([a, b] :: windows2 (b :: rest)) = _
      have hw : stepWindow cmp s [a, b] = stepState cmp s a b := rfl
      rw [tryFoldWindows, hw]
      have hp : tryFoldPairs cmp s (pairsOf (a :: b :: rest)) =
          match stepState cmp s a b with
          | none => none
          | some (.error m) => some (.error m)
          | some (.ok s1) => tryFoldPairs cmp s1 (pairsOf (b :: rest)) := rfl
      rw [hp]
      rcases stepState cmp s a b with _ | r
      · rfl
      · rcases r with m | s1
        · rfl
        · exact ih s1

theorem tryFoldIdx_mkView_shift (cmp : α → α → Option Ordering) (a : α)
    (l : List α) : ∀ (idxs : List Nat) (s : State),
      tryFoldIdx cmp (mkView (a :: l)) s (idxs.map Nat.succ) =
        tryFoldIdx cmp (mkView l) s idxs := by
  intro idxs
  induction idxs with
  | nil => intro s; rfl
  | cons i idxs ih =>
    intro s
    have hstep : stepIdx cmp (mkView (a :: l)) s (Nat.succ i) =
        stepIdx cmp (mkView l) s i := by
      rw [stepIdx, stepIdx, mkView_lookup, mkView_lookup, mkView_lookup,
        mkView_lookup]
      rfl
    rw [List.map_cons, tryFoldIdx, tryFoldIdx, hstep]
    rcases stepIdx cmp (mkView l) s i with _ | r
    · rfl
    · rcases r with m | s1
      · rfl
      · exact ih s1

theorem tryFoldIdx_mkView (cmp : α → α → Option Ordering) :
    ∀ (l : List α) (s : State),
      tryFoldIdx cmp (mkView l) s (List.range (l.length - 1)) =
        tryFoldPairs cmp s (pairsOf l) := by
  intro l
  induction l with
  | nil => intro s; rfl
  | cons a tail ih =>
    intro s
    cases tail with
    | nil => rfl
    | cons b rest =>
      have hlen : (a :: b :: rest).length - 1 = rest.length + 1 := by
        simp
      rw [hlen, List.range_succ_eq_map, tryFoldIdx]
      have hstep : stepIdx cmp (mkView (a :: b :: rest)) s 0 =
          stepState cmp s a b := by
        rw [stepIdx, mkView_lookup, mkView_lookup]
        rfl
      rw [hstep]
      have hp : tryFoldPairs cmp s (pairsOf (a :: b :: rest)) =
          match stepState cmp s a b with
          | none => none
          | some (.error m) => some (.error m)
          | some (.ok s1) => tryFoldPairs cmp s1 (pairsOf (b :: rest)) := rfl
      rw [hp]
      rcases stepState cmp s a b with _ | r
      · rfl
      · rcases r with m | s1
        · rfl
        · show tryFoldIdx cmp (mkView (a :: b :: rest)) s1
              (List.map Nat.succ (List.range rest.length)) =
            tryFoldPairs cmp s1 (pairsOf (b :: rest))
          rw [tryFoldIdx_mkView_shift]
          have hlen2 : rest.length = (b :: rest).length - 1 := by simp
          rw [hlen2]
          exact ih s1

/-- Coherence of the two embeddings: on the contiguous forward view of a
list, the view fold computes exactly the list fold. -/
theorem monotonic_propView_mkView (cmp : α → α → Option Ordering)
    (l : List α) : monotonic_propView cmp (mkView l) = monotonic_prop cmp l := by
  rw [monotonic_propView, monotonic_prop]
  have hlen : (mkView l).len = l.length := rfl
  rw [hlen]
  by_cases h1 : l.length ≤ 1
  · simp [h1]
  · simp only [h1, if_false]
    rw [tryFoldIdx_mkView, tryFoldWindows_eq_tryFoldPairs]

example : monotonic_prop cmpLin ([1, 2, 3, 4] : List Int) =
    some (.Rising true) := by decide

example : monotonic_prop cmpLin ([1, 2, 2, 4] : List Int) =
    some (.Rising false) := by decide

example : monotonic_prop cmpLin ([5, 4, 3] : List Int) =
    some (.Falling true) := by decide

example : monotonic_prop cmpLin ([1, 1, 1] : List Int) =
    some .NotMonotonic := by decide

example : monotonic_prop cmpLin ([1, 2, 1] : List Int) =
    some .NotMonotonic := by decide

example : monotonic_prop cmpLin ([1] : List Int) =
    some .NotMonotonic := by decide

example : monotonic_prop cmpLin ([1, 1, 2] : List Int) =
    some (.Rising false) := by decide

end VecExt
